import Mathlib

/-!
Verification of the run recycler (`src/libpmemobj/recycler.c`).

The file shallowly embeds the recycler's data model and operations:

* `recycler_element` / `recycler_element_cmp` — the score record and its
  four-field lexicographic comparator.
* `recycler_element_new` — the run scorer: per 64-bit bitmap word it inverts
  the word, accumulates a popcount into a 16-bit `free_space` counter, and
  computes the longest run of contiguous free bits by the repeated
  AND-with-self-shifted-left loop (`recycler_longest_run_loop`).
* `recycler` — the aggregate state: scored index, pending queue, scratch
  buffer, `unaccounted_units`, `recalc_threshold` and the single-flight flag.
* `recycler_put`, `recycler_get`, `recycler_pending_put`,
  `recycler_pending_check`, `recycler_recalc`, `recycler_inc_unaccounted`.

External collaborators whose sources are not part of this repository are
modelled from the specification's contracts:

* the ordered tree (`ravl`) backing the scored index is modelled as a
  multiset of elements (a list); `ravl_find_ge` returns the least element
  (w.r.t. `recycler_element_cmp`) that is greater than or equal to the probe,
  which is exactly the tree's `RAVL_PREDICATE_GREATER_EQUAL` lookup, and
  `ravl_emplace_copy` records one more element;
* the growable vector (`vec`) is modelled as a list with append and erase;
  the pending scan processes every entry of the queue;
* the heap is modelled as the map from a run's coordinates to its bitmap
  words and to the `size_idx` field of its persistent chunk header;
  `memblock_rebuild_state` only rebuilds derived in-memory metadata, so on
  the modelled fields it is the identity.

C fixed-width arithmetic is made explicit: 64-bit words are naturals reduced
mod `2 ^ 64`, the 16-bit `free_space` accumulator is reduced mod `2 ^ 16`,
and the `~` complement of a 64-bit word is xor with the all-ones mask.
Assertion failures (`ASSERT`) abort the program; operations that can assert
return `Option`, with `none` for the aborted execution.
-/

set_option maxRecDepth 40000

/-- THRESHOLD_MUL from recycler.c: the recalc threshold is twice `nallocs`. -/
def THRESHOLD_MUL : Nat := 2

/-- Width in bits of one bitmap word (`uint64_t`). -/
def BITS_PER_VALUE : Nat := 64

/-- Largest value of a `uint64_t`. -/
def UINT64_MAX : Nat := 2 ^ 64 - 1

/-- The errno value returned by `recycler_get` when no run qualifies. -/
def ENOMEM : Nat := 12

/-- Score record for one run (struct recycler_element): largest contiguous
free block, total free space (both 16-bit), and the run's coordinates. -/
structure recycler_element where
  max_free_block : Nat
  free_space : Nat
  zone_id : Nat
  chunk_id : Nat
deriving DecidableEq

/-- The fields of struct memory_block that the recycler reads or writes. -/
structure memory_block where
  chunk_id : Nat
  zone_id : Nat
  size_idx : Nat
deriving DecidableEq

/-- A pending run together with its outstanding reservation count
(struct memory_block_reserved). -/
structure memory_block_reserved where
  m : memory_block
  nresv : Nat
deriving DecidableEq

/-- Modelled from the spec: the heap exposes, per run coordinate pair, the
run's bitmap words (`heap_get_chunk_run`) and the authoritative `size_idx`
of the run's persistent chunk header (`heap_get_chunk_hdr`). -/
structure palloc_heap where
  run_bitmap : Nat → Nat → List Nat
  hdr_size_idx : Nat → Nat → Nat

/-- recycler_element_cmp: compare two elements field by field, ascending,
each later field breaking ties of the previous one, returning the sign of
the first nonzero difference. -/
def recycler_element_cmp (lhs rhs : recycler_element) : Int :=
  let d1 : Int := (lhs.max_free_block : Int) - (rhs.max_free_block : Int)
  if d1 ≠ 0 then (if d1 > 0 then 1 else -1) else
  let d2 : Int := (lhs.free_space : Int) - (rhs.free_space : Int)
  if d2 ≠ 0 then (if d2 > 0 then 1 else -1) else
  let d3 : Int := (lhs.zone_id : Int) - (rhs.zone_id : Int)
  if d3 ≠ 0 then (if d3 > 0 then 1 else -1) else
  let d4 : Int := (lhs.chunk_id : Int) - (rhs.chunk_id : Int)
  if d4 ≠ 0 then (if d4 > 0 then 1 else -1) else 0

/-- Boolean order induced by the comparator: `a` is at most `b`. -/
def element_le (a b : recycler_element) : Bool :=
  decide (recycler_element_cmp a b ≤ 0)

/-- util_popcount64: number of set bits of a 64-bit word. -/
def util_popcount64 (v : Nat) : Nat :=
  ((Finset.range 64).filter (fun i => v.testBit i = true)).card

/-- Bitwise complement of a 64-bit word (`~w` on `uint64_t`): xor with the
all-ones mask. -/
def complement64 (w : Nat) : Nat :=
  (w % 2 ^ 64) ^^^ UINT64_MAX

/-- The inner while loop of recycler_element_new: repeatedly AND the value
with itself shifted left by one (64-bit), counting iterations until zero. -/
def recycler_longest_run_loop (value n : Nat) : Nat :=
  if h : value = 0 then n
  else recycler_longest_run_loop (value &&& ((value <<< 1) % 2 ^ 64)) (n + 1)
termination_by value
decreasing_by
  have hle : value &&& ((value <<< 1) % 2 ^ 64) ≤ value := Nat.and_le_left
  rcases Nat.lt_or_ge (value &&& ((value <<< 1) % 2 ^ 64)) value with hlt | hge
  · exact hlt
  · exfalso
    have heq : value &&& ((value <<< 1) % 2 ^ 64) = value :=
      Nat.le_antisymm hle hge
    have hex : ∃ i, value.testBit i = true := by
      by_contra hc
      push_neg at hc
      refine h (Nat.eq_of_testBit_eq fun i => ?_)
      simp only [Nat.zero_testBit]
      exact Bool.not_eq_true _ ▸ (Bool.eq_false_iff.mpr (hc i))
    have hk : value.testBit (Nat.find hex) = true := Nat.find_spec hex
    have hmin : ∀ j, j < Nat.find hex → value.testBit j = false := by
      intro j hj
      have := Nat.find_min hex hj
      simpa using this
    have h2 : (value &&& ((value <<< 1) % 2 ^ 64)).testBit (Nat.find hex)
        = true := by rw [heq]; exact hk
    rw [Nat.testBit_and, Bool.and_eq_true] at h2
    have h3 := h2.2
    rw [Nat.testBit_mod_two_pow, Bool.and_eq_true] at h3
    have h4 := h3.2
    rw [Nat.testBit_shiftLeft, Bool.and_eq_true] at h4
    rcases h4 with ⟨hge1, hbit⟩
    have hge1' : 1 ≤ Nat.find hex := of_decide_eq_true hge1
    have : value.testBit (Nat.find hex - 1) = false := by
      exact hmin _ (by omega)
    rw [this] at hbit
    exact Bool.false_ne_true hbit

/-- The body of the bitmap scan loop of recycler_element_new, acting on the
accumulator (free_space, max_block) for one bitmap word. -/
def recycler_score_step (acc : Nat × Nat) (word : Nat) : Nat × Nat :=
  let value := complement64 word
  if value = 0 then acc
  else
    let free_in_value := util_popcount64 value
    let free_space := (acc.1 + free_in_value) % 2 ^ 16
    if free_in_value < acc.2 then (free_space, acc.2)
    else if free_in_value = BITS_PER_VALUE then (free_space, BITS_PER_VALUE)
    else
      let n := recycler_longest_run_loop value 0
      if n > acc.2 then (free_space, n) else (free_space, acc.2)

/-- recycler_element_new: scan the run's bitmap and produce its score. -/
def recycler_element_new (heap : palloc_heap) (m : memory_block) :
    recycler_element :=
  let fm := (heap.run_bitmap m.chunk_id m.zone_id).foldl recycler_score_step
    (0, 0)
  { max_free_block := fm.2
    free_space := fm.1
    zone_id := m.zone_id
    chunk_id := m.chunk_id }

/-- Modelled from the spec: inserting a copy of an element into the ordered
tree records one more (possibly duplicate) entry of the multiset. -/
def ravl_emplace_copy (runs : List recycler_element)
    (e : recycler_element) : List recycler_element :=
  runs ++ [e]

/-- Modelled from the spec: `ravl_find` with `RAVL_PREDICATE_GREATER_EQUAL`
returns the least element of the index that is greater than or equal to the
probe, or none. -/
def ravl_find_ge (runs : List recycler_element) (key : recycler_element) :
    Option recycler_element :=
  match runs.filter (fun e => element_le key e) with
  | [] => none
  | x :: xs => some (xs.foldl (fun a b => if element_le a b then a else b) x)

/-- The all-zero memory block used to initialize loop variables. -/
def MEMORY_BLOCK_NONE : memory_block :=
  { chunk_id := 0, zone_id := 0, size_idx := 0 }

/-- Modelled from the spec: rebuilding the in-memory block state from the
persistent header only recreates derived metadata (type, operations), so it
is the identity on the fields modelled here. -/
def memblock_rebuild_state (_heap : palloc_heap) (m : memory_block) :
    memory_block := m

/-- The recycler aggregate (struct recycler).  The heap pointer is passed
explicitly to the operations that read it; the lock serializes the
operations, which the sequential model renders implicit. -/
structure recycler where
  runs : List recycler_element
  unaccounted_units : Nat
  nallocs : Nat
  recalc_threshold : Nat
  recalc_inprogress : Bool
  recalc : List recycler_element
  pending : List memory_block_reserved
deriving DecidableEq

/-- recycler_new: fresh recycler with empty index, queue and scratch. -/
def recycler_new (nallocs : Nat) : recycler :=
  { runs := []
    unaccounted_units := 0
    nallocs := nallocs
    recalc_threshold := nallocs * THRESHOLD_MUL
    recalc_inprogress := false
    recalc := []
    pending := [] }

/-- recycler_put: insert the score element into the scored index.  The
memory-block argument is not read, exactly as in the source. -/
def recycler_put (r : recycler) (_m : memory_block)
    (element : recycler_element) : recycler × Nat :=
  ({ r with runs := ravl_emplace_copy r.runs element }, 0)

/-- The body of the pending scan for one queue entry: a run with no
outstanding reservations is scored, inserted into the index and dropped
from the queue; other entries are kept. -/
def recycler_pending_step (heap : palloc_heap)
    (acc : List recycler_element × List memory_block_reserved)
    (mr : memory_block_reserved) :
    List recycler_element × List memory_block_reserved :=
  if mr.nresv = 0 then
    (ravl_emplace_copy acc.1 (recycler_element_new heap mr.m), acc.2)
  else
    (acc.1, acc.2 ++ [mr])

/-- recycler_pending_check: scan the whole pending queue, moving every entry
whose reservation count reached zero into the scored index. -/
def recycler_pending_check (heap : palloc_heap) (r : recycler) : recycler :=
  let res := r.pending.foldl (recycler_pending_step heap) (r.runs, [])
  { r with runs := res.1, pending := res.2 }

/-- recycler_get: drain the pending queue, then best-fit search for the
smallest score whose `max_free_block` is at least the requested
`m.size_idx`; on success remove the entry and refresh `size_idx` from the
persistent chunk header.  Returns the new state, the (possibly updated)
block and the return code (0 or ENOMEM).  The probe's `max_free_block`
field is 16 bits wide, hence the reduction of the 32-bit request. -/
def recycler_get (heap : palloc_heap) (r : recycler) (m : memory_block) :
    recycler × memory_block × Nat :=
  let r1 := recycler_pending_check heap r
  let e : recycler_element :=
    { max_free_block := m.size_idx % 2 ^ 16
      free_space := 0
      zone_id := 0
      chunk_id := 0 }
  match ravl_find_ge r1.runs e with
  | none => (r1, m, ENOMEM)
  | some ne =>
    let m1 : memory_block :=
      { m with chunk_id := ne.chunk_id, zone_id := ne.zone_id }
    let runs1 := r1.runs.erase ne
    let m2 : memory_block :=
      { m1 with size_idx := heap.hdr_size_idx m1.chunk_id m1.zone_id }
    ({ r1 with runs := runs1 }, memblock_rebuild_state heap m2, 0)

/-- recycler_pending_put: append the reserved run to the pending queue. -/
def recycler_pending_put (r : recycler) (m : memory_block_reserved) :
    recycler :=
  { r with pending := r.pending ++ [m] }

/-- The rescan loop of recycler_recalc: repeatedly extract the smallest
score, rescore its run from the heap, collect fully-free runs, stash the
rest for reinsertion, and stop when the removed free-space difference
reaches the search limit or the index is exhausted.  The `ASSERT` that a
fresh score is never smaller than the stored one is the `none` outcome. -/
def recycler_recalc_loop (heap : palloc_heap) (nallocs : Nat)
    (runs buf : List recycler_element) (out : List memory_block)
    (found_units search_limit : Nat) :
    Option (List recycler_element × List recycler_element ×
      List memory_block) :=
  match hf : ravl_find_ge runs
      { max_free_block := 0, free_space := 0, zone_id := 0, chunk_id := 0 }
    with
  | none => some (runs, buf, out)
  | some ne =>
    let nm : memory_block :=
      { MEMORY_BLOCK_NONE with chunk_id := ne.chunk_id, zone_id := ne.zone_id }
    let existing_free_space := ne.free_space
    let runs1 := runs.erase ne
    let e := recycler_element_new heap (memblock_rebuild_state heap nm)
    if e.free_space < existing_free_space then none
    else
      let found_units1 := found_units + (e.free_space - existing_free_space)
      if e.free_space = nallocs then
        let out1 := out ++ [memblock_rebuild_state heap nm]
        if found_units1 < search_limit then
          recycler_recalc_loop heap nallocs runs1 buf out1 found_units1
            search_limit
        else some (runs1, buf, out1)
      else
        let buf1 := buf ++ [e]
        if found_units1 < search_limit then
          recycler_recalc_loop heap nallocs runs1 buf1 out found_units1
            search_limit
        else some (runs1, buf1, out)
termination_by runs.length
decreasing_by
  all_goals
    have hmem : ne ∈ runs := by
      have hgen : ∀ (xs : List recycler_element) (x : recycler_element),
          xs.foldl (fun a b => if element_le a b then a else b) x ∈ x :: xs := by
        intro xs
        induction xs with
        | nil => intro x; simp
        | cons y ys ih =>
          intro x
          simp only [List.foldl_cons]
          by_cases hxy : element_le x y = true
          · rw [if_pos hxy]
            rcases List.mem_cons.mp (ih x) with hh | hh
            · simp [hh]
            · exact List.mem_cons_of_mem _ (List.mem_cons_of_mem _ hh)
          · rw [if_neg hxy]
            rcases List.mem_cons.mp (ih y) with hh | hh
            · simp [hh]
            · exact List.mem_cons_of_mem _ (List.mem_cons_of_mem _ hh)
      unfold ravl_find_ge at hf
      rcases hfil : runs.filter (fun e => element_le
          { max_free_block := 0, free_space := 0, zone_id := 0,
            chunk_id := 0 } e) with _ | ⟨x, xs⟩
      · rw [hfil] at hf; exact absurd hf (by simp)
      · rw [hfil] at hf
        simp only [Option.some.injEq] at hf
        have hin : ne ∈ x :: xs := hf ▸ hgen xs x
        have : ne ∈ runs.filter (fun e => element_le
            { max_free_block := 0, free_space := 0, zone_id := 0,
              chunk_id := 0 } e) := by rw [hfil]; exact hin
        exact List.mem_of_mem_filter this
    have := List.length_erase_of_mem hmem
    have hpos : 0 < runs.length := List.length_pos_of_mem hmem
    simp only [this]
    omega

/-- recycler_recalc: the amortized recalculation pass.  Early-exits when a
pass is in flight or (unforced) the unaccounted units are below the
threshold; otherwise claims the single-flight gate, rescans under the
search limit, reinserts the stashed scores, clears the scratch, subtracts
the snapshotted units and releases the gate. -/
def recycler_recalc (heap : palloc_heap) (r : recycler) (force : Bool) :
    Option (recycler × List memory_block) :=
  let units := r.unaccounted_units
  if r.recalc_inprogress || (!force && decide (units < r.recalc_threshold))
  then some (r, [])
  else
    let search_limit := if force then UINT64_MAX else units
    match recycler_recalc_loop heap r.nallocs r.runs r.recalc [] 0
        search_limit with
    | none => none
    | some (runs1, buf1, out) =>
      let runs2 := buf1.foldl (fun rs e => ravl_emplace_copy rs e) runs1
      some ({ r with
        runs := runs2
        recalc := []
        unaccounted_units := r.unaccounted_units - units
        recalc_inprogress := false }, out)

/-- recycler_inc_unaccounted: lock-free add of the freed block count. -/
def recycler_inc_unaccounted (r : recycler) (m : memory_block) : recycler :=
  { r with unaccounted_units := (r.unaccounted_units + m.size_idx) % 2 ^ 64 }

/-- Number of free (zero) bits of one 64-bit bitmap word. -/
def freeBitsInWord (w : Nat) : Nat :=
  ((Finset.range 64).filter (fun i => (w % 2 ^ 64).testBit i = false)).card

/-- Total number of free bits of a bitmap. -/
def totalFreeBits (bm : List Nat) : Nat :=
  (bm.map freeBitsInWord).sum

/-- A 64-bit value has a run of `L` contiguous set bits starting below 64. -/
def hasOneRun (v L : Nat) : Prop :=
  ∃ i < 64, ∀ j < L, v.testBit (i + j) = true

instance hasOneRun.dec (v L : Nat) : Decidable (hasOneRun v L) :=
  inferInstanceAs (Decidable (∃ i < 64, ∀ j < L, v.testBit (i + j) = true))

/-- Length of the longest run of contiguous set bits of a 64-bit value. -/
def maxOneRun (v : Nat) : Nat :=
  Nat.findGreatest (hasOneRun v) 64

/-- Longest run of contiguous free bits lying within a single word of the
bitmap. -/
def maxFreeRunBm (bm : List Nat) : Nat :=
  (bm.map (fun w => maxOneRun (complement64 w))).foldr max 0

/-- The coordinates of the run an index entry refers to. -/
def handle_of (e : recycler_element) : memory_block :=
  { chunk_id := e.chunk_id, zone_id := e.zone_id, size_idx := 0 }

/-- The score the run scorer computes today for the run an entry refers
to. -/
def fresh_score (heap : palloc_heap) (e : recycler_element) :
    recycler_element :=
  recycler_element_new heap (handle_of e)

/-! ## Order lemmas for the comparator -/

/-- The all-zero probe is below every element. -/
theorem element_le_empty (e : recycler_element) :
    element_le { max_free_block := 0, free_space := 0, zone_id := 0, chunk_id := 0 } e = true := by
  unfold element_le recycler_element_cmp
  simp only [decide_eq_true_eq]
  dsimp only
  split_ifs <;> omega

/-- An element above a probe that only sets `max_free_block` has at least
that `max_free_block`. -/
theorem element_le_probe_mfb {k : Nat} {e : recycler_element}
    (h : element_le { max_free_block := k, free_space := 0, zone_id := 0, chunk_id := 0 } e = true) :
    k ≤ e.max_free_block := by
  unfold element_le recycler_element_cmp at h
  simp only [decide_eq_true_eq] at h
  dsimp only at h
  split_ifs at h <;> omega

/-- A probe that only sets `max_free_block`, to a value at most the
element's own `max_free_block`, is below the element. -/
theorem element_le_probe_of_le {k : Nat} {e : recycler_element}
    (h : k ≤ e.max_free_block) :
    element_le { max_free_block := k, free_space := 0, zone_id := 0, chunk_id := 0 } e = true := by
  unfold element_le recycler_element_cmp
  simp only [decide_eq_true_eq]
  dsimp only
  split_ifs <;> omega

/-! ## Lemmas about the modelled ordered-tree lookup -/

/-- The minimum fold used by `ravl_find_ge` picks one of its inputs. -/
theorem foldl_min_mem (xs : List recycler_element) (x : recycler_element) :
    xs.foldl (fun a b => if element_le a b then a else b) x ∈ x :: xs := by
  induction xs generalizing x with
  | nil => simp
  | cons y ys ih =>
    simp only [List.foldl_cons]
    by_cases hxy : element_le x y = true
    · rw [if_pos hxy]
      rcases List.mem_cons.mp (ih x) with hh | hh
      · simp [hh]
      · exact List.mem_cons_of_mem _ (List.mem_cons_of_mem _ hh)
    · rw [if_neg hxy]
      rcases List.mem_cons.mp (ih y) with hh | hh
      · simp [hh]
      · exact List.mem_cons_of_mem _ (List.mem_cons_of_mem _ hh)

/-- A successful greater-equal lookup returns an element of the index. -/
theorem ravl_find_ge_mem {runs : List recycler_element}
    {key ne : recycler_element} (h : ravl_find_ge runs key = some ne) :
    ne ∈ runs := by
  unfold ravl_find_ge at h
  rcases hfil : runs.filter (fun e => element_le key e) with _ | ⟨x, xs⟩
  · rw [hfil] at h; exact absurd h (by simp)
  · rw [hfil] at h
    simp only [Option.some.injEq] at h
    have hin : ne ∈ x :: xs := h ▸ foldl_min_mem xs x
    have : ne ∈ runs.filter (fun e => element_le key e) := by
      rw [hfil]; exact hin
    exact List.mem_of_mem_filter this

/-- A successful greater-equal lookup returns an element at or above the
probe. -/
theorem ravl_find_ge_le {runs : List recycler_element}
    {key ne : recycler_element} (h : ravl_find_ge runs key = some ne) :
    element_le key ne = true := by
  unfold ravl_find_ge at h
  rcases hfil : runs.filter (fun e => element_le key e) with _ | ⟨x, xs⟩
  · rw [hfil] at h; exact absurd h (by simp)
  · rw [hfil] at h
    simp only [Option.some.injEq] at h
    have hin : ne ∈ x :: xs := h ▸ foldl_min_mem xs x
    have : ne ∈ runs.filter (fun e => element_le key e) := by
      rw [hfil]; exact hin
    exact List.of_mem_filter this

/-- With the all-zero probe the lookup fails exactly on the empty index. -/
theorem ravl_find_ge_empty_probe_none_iff (runs : List recycler_element) :
    ravl_find_ge runs { max_free_block := 0, free_space := 0, zone_id := 0, chunk_id := 0 } = none ↔
    runs = [] := by
  have hfil : runs.filter
      (fun e => element_le { max_free_block := 0, free_space := 0, zone_id := 0, chunk_id := 0 } e)
      = runs :=
    List.filter_eq_self.mpr (fun a _ => element_le_empty a)
  unfold ravl_find_ge
  rw [hfil]
  cases runs <;> simp

/-- Lookup in a one-element index that qualifies returns that element. -/
theorem ravl_find_ge_singleton {key s : recycler_element}
    (h : element_le key s = true) : ravl_find_ge [s] key = some s := by
  unfold ravl_find_ge
  simp [h]

/-! ## Bit-level lemmas for the run scorer -/

/-- A set bit of a 64-bit value lies below position 64. -/
theorem testBit_lt_64 {v i : Nat} (hv : v < 2 ^ 64)
    (h : v.testBit i = true) : i < 64 := by
  by_contra hi
  push_neg at hi
  have hf : v.testBit i = false :=
    Nat.testBit_eq_false_of_lt
      (lt_of_lt_of_le hv (Nat.pow_le_pow_right (by norm_num) hi))
  rw [hf] at h
  exact Bool.false_ne_true h

/-- Bits of one iteration of the AND-with-shift loop: bit `i` survives
exactly when bits `i` and `i - 1` are both set (and `i ≥ 1`). -/
theorem testBit_and_shift {v : Nat} (hv : v < 2 ^ 64) (i : Nat) :
    (v &&& ((v <<< 1) % 2 ^ 64)).testBit i =
      (v.testBit i && (decide (1 ≤ i) && v.testBit (i - 1))) := by
  rw [Nat.testBit_and, Nat.testBit_mod_two_pow, Nat.testBit_shiftLeft]
  by_cases hi : i < 64
  · simp [hi, ge_iff_le]
  · have hf : v.testBit i = false :=
      Nat.testBit_eq_false_of_lt
        (lt_of_lt_of_le hv (Nat.pow_le_pow_right (by norm_num) (by omega)))
    simp [hf]

/-- One loop iteration strictly decreases a nonzero value. -/
theorem and_shift_lt {v : Nat} (h : v ≠ 0) :
    v &&& ((v <<< 1) % 2 ^ 64) < v := by
  have hle : v &&& ((v <<< 1) % 2 ^ 64) ≤ v := Nat.and_le_left
  rcases Nat.lt_or_ge (v &&& ((v <<< 1) % 2 ^ 64)) v with hlt | hge
  · exact hlt
  · exfalso
    have heq : v &&& ((v <<< 1) % 2 ^ 64) = v := Nat.le_antisymm hle hge
    have hex : ∃ i, v.testBit i = true := by
      by_contra hc
      push_neg at hc
      refine h (Nat.eq_of_testBit_eq fun i => ?_)
      simp only [Nat.zero_testBit]
      exact Bool.not_eq_true _ ▸ (Bool.eq_false_iff.mpr (hc i))
    have hk : v.testBit (Nat.find hex) = true := Nat.find_spec hex
    have hmin : ∀ j, j < Nat.find hex → v.testBit j = false := by
      intro j hj
      have := Nat.find_min hex hj
      simpa using this
    have h2 : (v &&& ((v <<< 1) % 2 ^ 64)).testBit (Nat.find hex) = true := by
      rw [heq]; exact hk
    rw [Nat.testBit_and, Bool.and_eq_true] at h2
    have h3 := h2.2
    rw [Nat.testBit_mod_two_pow, Bool.and_eq_true] at h3
    have h4 := h3.2
    rw [Nat.testBit_shiftLeft, Bool.and_eq_true] at h4
    rcases h4 with ⟨hge1, hbit⟩
    have hge1' : 1 ≤ Nat.find hex := of_decide_eq_true hge1
    have hlow : v.testBit (Nat.find hex - 1) = false := hmin _ (by omega)
    rw [hlow] at hbit
    exact Bool.false_ne_true hbit

/-- Every value has a (vacuous) run of length zero. -/
theorem hasOneRun_zero (v : Nat) : hasOneRun v 0 :=
  ⟨0, by omega, fun j hj => absurd hj (by omega)⟩

/-- A nonzero 64-bit value has a run of length one. -/
theorem hasOneRun_one {v : Nat} (hv : v < 2 ^ 64) (h : v ≠ 0) :
    hasOneRun v 1 := by
  have hex : ∃ i, v.testBit i = true := by
    by_contra hc
    push_neg at hc
    refine h (Nat.eq_of_testBit_eq fun i => ?_)
    simp only [Nat.zero_testBit]
    exact Bool.not_eq_true _ ▸ (Bool.eq_false_iff.mpr (hc i))
  obtain ⟨i, hi⟩ := hex
  exact ⟨i, testBit_lt_64 hv hi, fun j hj => by
    have : j = 0 := by omega
    subst this
    simpa using hi⟩

/-- Runs of the shifted-and value are exactly runs of `v` one bit longer. -/
theorem hasOneRun_and_shift {v : Nat} (hv : v < 2 ^ 64) (L : Nat) :
    hasOneRun (v &&& ((v <<< 1) % 2 ^ 64)) (L + 1) ↔ hasOneRun v (L + 2) := by
  constructor
  · rintro ⟨i, hi64, hrun⟩
    have h0 := hrun 0 (by omega)
    rw [testBit_and_shift hv, Bool.and_eq_true, Bool.and_eq_true] at h0
    obtain ⟨hb0, hgei, hbm⟩ := h0
    have hge1 : 1 ≤ i := by
      have := of_decide_eq_true hgei
      omega
    refine ⟨i - 1, by omega, ?_⟩
    intro j hj
    rcases Nat.eq_zero_or_pos j with rfl | hjpos
    · have : i - 1 + 0 = i + 0 - 1 := by omega
      rw [this]
      exact hbm
    · have hj' := hrun (j - 1) (by omega)
      rw [testBit_and_shift hv, Bool.and_eq_true] at hj'
      obtain ⟨hb, -⟩ := hj'
      have : i - 1 + j = i + (j - 1) := by omega
      rw [this]
      exact hb
  · rintro ⟨i, hi64, hrun⟩
    have htop : v.testBit (i + (L + 1)) = true := hrun (L + 1) (by omega)
    have htop64 : i + (L + 1) < 64 := testBit_lt_64 hv htop
    refine ⟨i + 1, by omega, ?_⟩
    intro j hj
    rw [testBit_and_shift hv]
    have h1 : v.testBit (i + 1 + j) = true := by
      have : i + 1 + j = i + (j + 1) := by omega
      rw [this]
      exact hrun (j + 1) (by omega)
    have h2 : v.testBit (i + j) = true := hrun j (by omega)
    simp [h1, h2]
    omega

/-- The shifted-and value never has a run of 64 bits. -/
theorem not_hasOneRun_and_shift_64 {v : Nat} (hv : v < 2 ^ 64) :
    ¬ hasOneRun (v &&& ((v <<< 1) % 2 ^ 64)) 64 := by
  rintro ⟨i, hi64, hrun⟩
  have hs64 : v &&& ((v <<< 1) % 2 ^ 64) < 2 ^ 64 :=
    lt_of_le_of_lt Nat.and_le_left hv
  rcases Nat.eq_zero_or_pos i with rfl | hipos
  · have h0 := hrun 0 (by omega)
    rw [testBit_and_shift hv] at h0
    rw [Bool.and_eq_true, Bool.and_eq_true] at h0
    obtain ⟨-, hgei, -⟩ := h0
    have := of_decide_eq_true hgei
    omega
  · have htop := hrun 63 (by omega)
    have := testBit_lt_64 hs64 htop
    omega

/-- The zero value has no positive run. -/
theorem maxOneRun_zero : maxOneRun 0 = 0 := by
  unfold maxOneRun
  rw [Nat.findGreatest_eq_zero_iff]
  rintro L hL - ⟨i, hi64, hrun⟩
  have := hrun 0 (by omega)
  rw [Nat.zero_testBit] at this
  exact Bool.false_ne_true this

/-- The longest run is at most 64. -/
theorem maxOneRun_le_64 (v : Nat) : maxOneRun v ≤ 64 :=
  Nat.findGreatest_le 64

/-- The longest run length is itself a run length. -/
theorem hasOneRun_maxOneRun (v : Nat) : hasOneRun v (maxOneRun v) :=
  Nat.findGreatest_spec (Nat.zero_le 64) (hasOneRun_zero v)

/-- Unfolding step of the longest run: one loop iteration removes exactly
one bit from every maximal run. -/
theorem maxOneRun_succ {v : Nat} (hv : v < 2 ^ 64) (h : v ≠ 0) :
    maxOneRun v = maxOneRun (v &&& ((v <<< 1) % 2 ^ 64)) + 1 := by
  set s := v &&& ((v <<< 1) % 2 ^ 64) with hs
  have hM : hasOneRun s (maxOneRun s) := hasOneRun_maxOneRun s
  have hM63 : maxOneRun s ≤ 63 := by
    rcases Nat.lt_or_ge (maxOneRun s) 64 with hlt | hge
    · omega
    · exfalso
      have h64 : maxOneRun s = 64 :=
        Nat.le_antisymm (maxOneRun_le_64 s) hge
      rw [h64] at hM
      exact not_hasOneRun_and_shift_64 hv hM
  have hup : maxOneRun s + 1 ≤ maxOneRun v := by
    apply Nat.le_findGreatest (by omega)
    rcases Nat.eq_zero_or_pos (maxOneRun s) with hz | hpos
    · rw [hz]
      exact hasOneRun_one hv h
    · obtain ⟨L, hL⟩ := Nat.exists_eq_add_of_lt hpos
      have : maxOneRun s = L + 1 := by omega
      rw [this] at hM ⊢
      exact (hasOneRun_and_shift hv L).mp hM
  have hdown : maxOneRun v ≤ maxOneRun s + 1 := by
    have hK : hasOneRun v (maxOneRun v) := hasOneRun_maxOneRun v
    rcases Nat.lt_or_ge (maxOneRun v) 2 with hsmall | hbig
    · omega
    · obtain ⟨L, hL⟩ := Nat.exists_eq_add_of_le hbig
      have hv64 := maxOneRun_le_64 v
      have hKL : maxOneRun v = L + 2 := by omega
      rw [hKL] at hK
      have : hasOneRun s (L + 1) := (hasOneRun_and_shift hv L).mpr hK
      have hle : L + 1 ≤ maxOneRun s :=
        Nat.le_findGreatest (by omega) this
      omega
  omega

/-- The while loop of the scorer computes the longest run of contiguous set
bits of a 64-bit value. -/
theorem recycler_longest_run_loop_eq {v : Nat} (hv : v < 2 ^ 64) :
    ∀ n, recycler_longest_run_loop v n = n + maxOneRun v := by
  induction v using Nat.strong_induction_on with
  | _ v ih =>
    intro n
    by_cases h : v = 0
    · subst h
      rw [recycler_longest_run_loop, dif_pos rfl, maxOneRun_zero]
      omega
    · rw [recycler_longest_run_loop, dif_neg h]
      have hlt : v &&& ((v <<< 1) % 2 ^ 64) < v := and_shift_lt h
      have hs64 : v &&& ((v <<< 1) % 2 ^ 64) < 2 ^ 64 := lt_trans hlt hv
      rw [ih _ hlt hs64 (n + 1), maxOneRun_succ hv h]
      omega

/-! ## Popcount and scorer characterization -/

/-- Popcount of a word is at most 64. -/
theorem util_popcount64_le_64 (v : Nat) : util_popcount64 v ≤ 64 := by
  have := Finset.card_filter_le (Finset.range 64)
    (fun i => v.testBit i = true)
  simpa [util_popcount64] using this

/-- The complement of a 64-bit word stays below `2 ^ 64`. -/
theorem complement64_lt (w : Nat) : complement64 w < 2 ^ 64 := by
  unfold complement64 UINT64_MAX
  exact Nat.xor_lt_two_pow (Nat.mod_lt _ (by norm_num)) (by norm_num)

/-- Bits of the complement: set exactly where the word has a zero bit
(below 64). -/
theorem complement64_testBit (w i : Nat) (hi : i < 64) :
    (complement64 w).testBit i = !(w % 2 ^ 64).testBit i := by
  unfold complement64 UINT64_MAX
  rw [Nat.testBit_xor, Nat.testBit_two_pow_sub_one]
  simp [hi]

/-- Popcount of the complement counts exactly the free bits of the word. -/
theorem util_popcount64_complement (w : Nat) :
    util_popcount64 (complement64 w) = freeBitsInWord w := by
  unfold util_popcount64 freeBitsInWord
  congr 1
  apply Finset.filter_congr
  intro i hi
  rw [Finset.mem_range] at hi
  rw [complement64_testBit w i hi]
  cases h : (w % 2 ^ 64).testBit i <;> simp [h]

/-- A run of set bits is no longer than the number of set bits. -/
theorem maxOneRun_le_popcount {v : Nat} (hv : v < 2 ^ 64) :
    maxOneRun v ≤ util_popcount64 v := by
  have hK : hasOneRun v (maxOneRun v) := hasOneRun_maxOneRun v
  rcases Nat.eq_zero_or_pos (maxOneRun v) with hz | hpos
  · omega
  · obtain ⟨i, hi64, hrun⟩ := hK
    have hsub : Finset.Ico i (i + maxOneRun v) ⊆
        (Finset.range 64).filter (fun j => v.testBit j = true) := by
      intro x hx
      rw [Finset.mem_Ico] at hx
      have hbit : v.testBit x = true := by
        have : x = i + (x - i) := by omega
        rw [this]
        exact hrun (x - i) (by omega)
      rw [Finset.mem_filter, Finset.mem_range]
      exact ⟨testBit_lt_64 hv hbit, hbit⟩
    have := Finset.card_le_card hsub
    rw [Nat.card_Ico] at this
    unfold util_popcount64
    omega

/-- A word whose complement has all 64 bits set has a full 64-bit run. -/
theorem maxOneRun_of_popcount_64 {v : Nat} (hv : v < 2 ^ 64)
    (h : util_popcount64 v = 64) : maxOneRun v = 64 := by
  have hfull : (Finset.range 64).filter (fun i => v.testBit i = true)
      = Finset.range 64 := by
    apply Finset.eq_of_subset_of_card_le (Finset.filter_subset _ _)
    rw [Finset.card_range]
    unfold util_popcount64 at h
    omega
  have hall : ∀ i < 64, v.testBit i = true := by
    intro i hi
    have : i ∈ (Finset.range 64).filter (fun i => v.testBit i = true) := by
      rw [hfull, Finset.mem_range]
      exact hi
    exact (Finset.mem_filter.mp this).2
  have hrun : hasOneRun v 64 := ⟨0, by omega, fun j hj => by
    simpa using hall j hj⟩
  have h1 : 64 ≤ maxOneRun v := Nat.le_findGreatest (by omega) hrun
  have h2 := maxOneRun_le_64 v
  omega

/-- One scorer step, characterized: the free-space accumulator gains the
word's free bits (mod 2^16) and the max tracker takes the word's longest
free run into account. -/
theorem recycler_score_step_spec (acc : Nat × Nat) (w : Nat)
    (h1 : acc.1 < 2 ^ 16) (h2 : acc.2 ≤ 64) :
    recycler_score_step acc w =
      ((acc.1 + freeBitsInWord w) % 2 ^ 16,
        max acc.2 (maxOneRun (complement64 w))) := by
  unfold recycler_score_step
  dsimp only
  have hvlt : complement64 w < 2 ^ 64 := complement64_lt w
  by_cases hz : complement64 w = 0
  · rw [if_pos hz]
    have : freeBitsInWord w = 0 := by
      rw [← util_popcount64_complement, hz]
      simp [util_popcount64, Nat.zero_testBit]
    rw [this, hz, maxOneRun_zero]
    have : (acc.1 + 0) % 2 ^ 16 = acc.1 := by omega
    rw [this]
    simp
  · rw [if_neg hz]
    rw [util_popcount64_complement]
    by_cases hlt : freeBitsInWord w < acc.2
    · rw [if_pos hlt]
      have : maxOneRun (complement64 w) ≤ freeBitsInWord w := by
        rw [← util_popcount64_complement]
        exact maxOneRun_le_popcount hvlt
      have : max acc.2 (maxOneRun (complement64 w)) = acc.2 := by omega
      rw [this]
    · rw [if_neg hlt]
      by_cases h64 : freeBitsInWord w = BITS_PER_VALUE
      · rw [if_pos h64]
        have hmax : maxOneRun (complement64 w) = 64 := by
          apply maxOneRun_of_popcount_64 hvlt
          rw [util_popcount64_complement]
          exact h64
        have : max acc.2 (maxOneRun (complement64 w)) = BITS_PER_VALUE := by
          unfold BITS_PER_VALUE at h64 ⊢
          omega
        rw [this]
      · rw [if_neg h64]
        rw [recycler_longest_run_loop_eq hvlt 0]
        rcases Nat.lt_or_ge acc.2 (0 + maxOneRun (complement64 w)) with
          hgt | hle
        · rw [if_pos hgt]
          have : max acc.2 (maxOneRun (complement64 w))
              = 0 + maxOneRun (complement64 w) := by omega
          rw [← this]
        · rw [if_neg (by omega)]
          have : max acc.2 (maxOneRun (complement64 w)) = acc.2 := by omega
          rw [this]

/-- Each word contributes at most 64 free bits. -/
theorem freeBitsInWord_le_64 (w : Nat) : freeBitsInWord w ≤ 64 := by
  have := Finset.card_filter_le (Finset.range 64)
    (fun i => (w % 2 ^ 64).testBit i = false)
  simpa [freeBitsInWord] using this

/-- The bitmap scan, characterized, provided the total free-bit count does
not overflow the 16-bit accumulator. -/
theorem recycler_score_fold (bm : List Nat) :
    ∀ acc : Nat × Nat, acc.1 + totalFreeBits bm < 2 ^ 16 → acc.2 ≤ 64 →
    bm.foldl recycler_score_step acc =
      (acc.1 + totalFreeBits bm, max acc.2 (maxFreeRunBm bm)) := by
  induction bm with
  | nil =>
    intro acc h1 h2
    simp [totalFreeBits, maxFreeRunBm]
  | cons w ws ih =>
    intro acc h1 h2
    have htot : totalFreeBits (w :: ws) = freeBitsInWord w + totalFreeBits ws := by
      simp [totalFreeBits]
    have hstep := recycler_score_step_spec acc w (by omega) h2
    rw [List.foldl_cons, hstep, ih]
    · have hmod : (acc.1 + freeBitsInWord w) % 2 ^ 16
          = acc.1 + freeBitsInWord w := by
        apply Nat.mod_eq_of_lt
        omega
      rw [hmod, htot]
      have hbm : maxFreeRunBm (w :: ws)
          = max (maxOneRun (complement64 w)) (maxFreeRunBm ws) := by
        simp [maxFreeRunBm]
      rw [hbm]
      refine Prod.ext ?_ ?_
      · simp; omega
      · simp [Nat.max_assoc]
    · have hmod : (acc.1 + freeBitsInWord w) % 2 ^ 16
          = acc.1 + freeBitsInWord w := by
        apply Nat.mod_eq_of_lt
        omega
      rw [hmod]
      rw [htot] at h1
      omega
    · have := maxOneRun_le_64 (complement64 w)
      omega

/-- Total free bits are bounded by 64 bits per word. -/
theorem totalFreeBits_le (bm : List Nat) :
    totalFreeBits bm ≤ 64 * bm.length := by
  unfold totalFreeBits
  induction bm with
  | nil => simp
  | cons w ws ih =>
    simp only [List.map_cons, List.sum_cons, List.length_cons]
    have := freeBitsInWord_le_64 w
    omega

/-- The run scorer, characterized: for any bitmap of at most 1023 words
(the on-media array is far smaller), `free_space` is the exact number of
free bits and `max_free_block` the exact longest within-word free run. -/
theorem recycler_element_new_spec (heap : palloc_heap) (m : memory_block)
    (H : (heap.run_bitmap m.chunk_id m.zone_id).length ≤ 1023) :
    recycler_element_new heap m =
      { max_free_block := maxFreeRunBm (heap.run_bitmap m.chunk_id m.zone_id)
        free_space := totalFreeBits (heap.run_bitmap m.chunk_id m.zone_id)
        zone_id := m.zone_id
        chunk_id := m.chunk_id } := by
  unfold recycler_element_new
  have hlt : totalFreeBits (heap.run_bitmap m.chunk_id m.zone_id) < 2 ^ 16 := by
    have := totalFreeBits_le (heap.run_bitmap m.chunk_id m.zone_id)
    have : 64 * (heap.run_bitmap m.chunk_id m.zone_id).length ≤ 64 * 1023 := by
      omega
    omega
  rw [recycler_score_fold _ (0, 0) (by simpa using hlt) (by omega)]
  simp

/-- The scorer's step keeps the 16-bit accumulator in range. -/
theorem recycler_score_step_fst_lt (acc : Nat × Nat) (w : Nat)
    (h : acc.1 < 2 ^ 16) : (recycler_score_step acc w).1 < 2 ^ 16 := by
  unfold recycler_score_step
  dsimp only
  split_ifs <;> first
    | exact h
    | exact Nat.mod_lt _ (by norm_num)

/-- The scorer's accumulator stays a 16-bit value along the whole fold. -/
theorem recycler_score_fold_fst_lt (bm : List Nat) :
    ∀ acc : Nat × Nat, acc.1 < 2 ^ 16 →
    (bm.foldl recycler_score_step acc).1 < 2 ^ 16 := by
  induction bm with
  | nil => intro acc h; simpa using h
  | cons w ws ih =>
    intro acc h
    rw [List.foldl_cons]
    exact ih _ (recycler_score_step_fst_lt acc w h)

/-- Every score the scorer produces has a 16-bit `free_space`. -/
theorem recycler_element_new_free_space_lt (heap : palloc_heap)
    (m : memory_block) : (recycler_element_new heap m).free_space < 2 ^ 16 := by
  unfold recycler_element_new
  exact recycler_score_fold_fst_lt _ (0, 0) (by norm_num)

/-! ## Pending queue and reinsertion folds -/

/-- The pending scan, characterized: zero-reservation entries are scored
and appended to the index, the others are kept, each exactly once. -/
theorem recycler_pending_fold (heap : palloc_heap)
    (ps : List memory_block_reserved) :
    ∀ rs kept, ps.foldl (recycler_pending_step heap) (rs, kept) =
      (rs ++ (ps.filter (fun x => decide (x.nresv = 0))).map
          (fun x => recycler_element_new heap x.m),
        kept ++ ps.filter (fun x => !decide (x.nresv = 0))) := by
  induction ps with
  | nil => intro rs kept; simp
  | cons p ps ih =>
    intro rs kept
    rw [List.foldl_cons]
    by_cases hp : p.nresv = 0
    · have hstep : recycler_pending_step heap (rs, kept) p =
          (ravl_emplace_copy rs (recycler_element_new heap p.m), kept) := by
        simp [recycler_pending_step, hp]
      rw [hstep, ih]
      simp [hp, ravl_emplace_copy, List.filter_cons, List.append_assoc]
    · have hstep : recycler_pending_step heap (rs, kept) p =
          (rs, kept ++ [p]) := by
        simp [recycler_pending_step, hp]
      rw [hstep, ih]
      simp [hp, List.filter_cons, List.append_assoc]

/-- recycler_pending_check, characterized on the whole state. -/
theorem recycler_pending_check_spec (heap : palloc_heap) (r : recycler) :
    recycler_pending_check heap r = { r with
      runs := r.runs ++ (r.pending.filter (fun x => decide (x.nresv = 0))).map
        (fun x => recycler_element_new heap x.m)
      pending := r.pending.filter (fun x => !decide (x.nresv = 0)) } := by
  unfold recycler_pending_check
  rw [recycler_pending_fold]
  simp

/-- Reinserting a list of stashed scores appends them to the index. -/
theorem foldl_emplace (l : List recycler_element) :
    ∀ acc, l.foldl (fun rs e => ravl_emplace_copy rs e) acc = acc ++ l := by
  induction l with
  | nil => intro acc; simp
  | cons e es ih =>
    intro acc
    rw [List.foldl_cons, ih]
    simp [ravl_emplace_copy]

/-! ## The recalculation loop -/

/-- The block the loop rescans is the handle recorded in the element. -/
theorem rebuild_nm_eq_handle (heap : palloc_heap) (ne : recycler_element) :
    memblock_rebuild_state heap
      { MEMORY_BLOCK_NONE with chunk_id := ne.chunk_id, zone_id := ne.zone_id }
      = handle_of ne := rfl

/-- The score the loop recomputes is the fresh score of the element's
run. -/
theorem fresh_score_eq_loop_elem (heap : palloc_heap)
    (ne : recycler_element) :
    recycler_element_new heap (memblock_rebuild_state heap
      { MEMORY_BLOCK_NONE with chunk_id := ne.chunk_id, zone_id := ne.zone_id })
      = fresh_score heap ne := rfl

/-- Summing the free-space drift over the index splits at any member. -/
theorem map_sum_erase (heap : palloc_heap) {runs : List recycler_element}
    {ne : recycler_element} (h : ne ∈ runs) :
    (runs.map (fun e =>
        (fresh_score heap e).free_space - e.free_space)).sum
      = ((fresh_score heap ne).free_space - ne.free_space)
        + ((runs.erase ne).map (fun e =>
            (fresh_score heap e).free_space - e.free_space)).sum := by
  have hperm := (List.perm_cons_erase h).map
    (fun e => (fresh_score heap e).free_space - e.free_space)
  rw [hperm.sum_eq]
  simp

/-- Under the stale-low hypothesis the recalculation loop never hits the
assertion: it always returns a result. -/
theorem recycler_recalc_loop_ne_none (heap : palloc_heap) (nallocs : Nat) :
    ∀ (n : Nat) (runs : List recycler_element), runs.length = n →
    ∀ (buf : List recycler_element) (out : List memory_block)
      (fu limit : Nat),
    (∀ e ∈ runs, e.free_space ≤ (fresh_score heap e).free_space) →
    recycler_recalc_loop heap nallocs runs buf out fu limit ≠ none := by
  intro n
  induction n using Nat.strong_induction_on with
  | _ n ih =>
    intro runs hlen buf out fu limit hst hcontra
    unfold recycler_recalc_loop at hcontra
    split at hcontra
    · exact absurd hcontra (by simp)
    · rename_i ne hf
      have hmem := ravl_find_ge_mem hf
      have hfresh := hst ne hmem
      dsimp only at hcontra
      rw [fresh_score_eq_loop_elem, rebuild_nm_eq_handle] at hcontra
      have hlt : (runs.erase ne).length < n := by
        rw [List.length_erase_of_mem hmem]
        have := List.length_pos_of_mem hmem
        omega
      have hst' : ∀ e ∈ runs.erase ne,
          e.free_space ≤ (fresh_score heap e).free_space :=
        fun e he => hst e (List.mem_of_mem_erase he)
      rw [if_neg (by omega)] at hcontra
      split_ifs at hcontra <;>
        first
          | exact ih _ hlt _ rfl _ _ _ _ hst' hcontra
          | exact absurd hcontra (by simp)

/-- One successful step of the recalculation loop, written without the
match: the found element is removed, rescanned, and routed by whether its
fresh score shows the run fully free. -/
theorem recycler_recalc_loop_step {heap : palloc_heap} {nallocs : Nat}
    {runs buf : List recycler_element} {out : List memory_block}
    {fu limit : Nat} {ne : recycler_element}
    (hf : ravl_find_ge runs { max_free_block := 0, free_space := 0, zone_id := 0, chunk_id := 0 }
      = some ne)
    (hok : ¬ (fresh_score heap ne).free_space < ne.free_space) :
    recycler_recalc_loop heap nallocs runs buf out fu limit =
      (if (fresh_score heap ne).free_space = nallocs then
        (if fu + ((fresh_score heap ne).free_space - ne.free_space) < limit
          then recycler_recalc_loop heap nallocs (runs.erase ne) buf
            (out ++ [handle_of ne])
            (fu + ((fresh_score heap ne).free_space - ne.free_space)) limit
          else some (runs.erase ne, buf, out ++ [handle_of ne]))
      else
        (if fu + ((fresh_score heap ne).free_space - ne.free_space) < limit
          then recycler_recalc_loop heap nallocs (runs.erase ne)
            (buf ++ [fresh_score heap ne]) out
            (fu + ((fresh_score heap ne).free_space - ne.free_space)) limit
          else some (runs.erase ne, buf ++ [fresh_score heap ne], out))) := by
  conv_lhs => rw [recycler_recalc_loop]
  split
  · rename_i hf'
    rw [hf] at hf'
    exact absurd hf' (by simp)
  · rename_i ne' hf'
    rw [hf] at hf'
    injection hf' with hne
    subst hne
    dsimp only
    rw [fresh_score_eq_loop_elem, rebuild_nm_eq_handle, if_neg hok]

/-- Under the stale-low hypothesis and a search limit that the total
free-space drift cannot reach, the recalculation loop drains the whole
index: the fully-free runs' handles go to the output, the fresh scores of
all other runs go to the stash, each exactly once (as multisets). -/
theorem recycler_recalc_loop_spec (heap : palloc_heap) (nallocs : Nat) :
    ∀ (n : Nat) (runs : List recycler_element), runs.length = n →
    ∀ (buf : List recycler_element) (out : List memory_block)
      (fu limit : Nat),
    (∀ e ∈ runs, e.free_space ≤ (fresh_score heap e).free_space) →
    fu + (runs.map (fun e =>
      (fresh_score heap e).free_space - e.free_space)).sum < limit →
    ∃ X Y,
      recycler_recalc_loop heap nallocs runs buf out fu limit
        = some ([], buf ++ X, out ++ Y)
      ∧ X.Perm ((runs.filter (fun e =>
          !decide ((fresh_score heap e).free_space = nallocs))).map
            (fresh_score heap))
      ∧ Y.Perm ((runs.filter (fun e =>
          decide ((fresh_score heap e).free_space = nallocs))).map
            handle_of) := by
  intro n
  induction n using Nat.strong_induction_on with
  | _ n ih =>
    intro runs hlen buf out fu limit hst hinv
    rcases hfind : ravl_find_ge runs
        { max_free_block := 0, free_space := 0, zone_id := 0, chunk_id := 0 } with _ | ne
    · have hempty : runs = [] :=
        (ravl_find_ge_empty_probe_none_iff runs).mp hfind
      subst hempty
      refine ⟨[], [], ?_, by simp, by simp⟩
      rw [recycler_recalc_loop]
      split
      · simp
      · rename_i ne' hf'
        rw [hfind] at hf'
        exact absurd hf' (by simp)
    · have hmem := ravl_find_ge_mem hfind
      have hfresh := hst ne hmem
      have hperm : runs.Perm (ne :: runs.erase ne) :=
        List.perm_cons_erase hmem
      have hlenpos := List.length_pos_of_mem hmem
      have hlt : (runs.erase ne).length < n := by
        rw [List.length_erase_of_mem hmem]
        omega
      have hst' : ∀ e ∈ runs.erase ne,
          e.free_space ≤ (fresh_score heap e).free_space :=
        fun e he => hst e (List.mem_of_mem_erase he)
      have hsum := map_sum_erase heap hmem
      rw [hsum] at hinv
      have hcheck : fu + ((fresh_score heap ne).free_space - ne.free_space)
          < limit := by omega
      have hinv' : fu + ((fresh_score heap ne).free_space - ne.free_space)
          + ((runs.erase ne).map (fun e =>
            (fresh_score heap e).free_space - e.free_space)).sum < limit := by
        omega
      have hstep := @recycler_recalc_loop_step heap nallocs runs buf out
        fu limit ne hfind (by omega)
      by_cases hfull : (fresh_score heap ne).free_space = nallocs
      · rw [hstep, if_pos hfull, if_pos hcheck]
        obtain ⟨X', Y', heq, hXp, hYp⟩ := ih _ hlt (runs.erase ne) rfl buf
          (out ++ [handle_of ne]) _ limit hst' hinv'
        refine ⟨X', handle_of ne :: Y', ?_, ?_, ?_⟩
        · rw [heq]
          simp [List.append_assoc]
        · have hmapx : ((runs.filter (fun e =>
              !decide ((fresh_score heap e).free_space = nallocs))).map
                (fresh_score heap)).Perm
              (((runs.erase ne).filter (fun e =>
                !decide ((fresh_score heap e).free_space = nallocs))).map
                  (fresh_score heap)) := by
            have := (hperm.filter (fun e =>
              !decide ((fresh_score heap e).free_space = nallocs))).map
                (fresh_score heap)
            simpa [List.filter_cons, hfull] using this
          exact hXp.trans hmapx.symm
        · have hmapy : ((runs.filter (fun e =>
              decide ((fresh_score heap e).free_space = nallocs))).map
                handle_of).Perm
              (handle_of ne :: ((runs.erase ne).filter (fun e =>
                decide ((fresh_score heap e).free_space = nallocs))).map
                  handle_of) := by
            have := (hperm.filter (fun e =>
              decide ((fresh_score heap e).free_space = nallocs))).map
                handle_of
            simpa [List.filter_cons, hfull] using this
          exact (hYp.cons (handle_of ne)).trans hmapy.symm
      · rw [hstep, if_neg hfull, if_pos hcheck]
        obtain ⟨X', Y', heq, hXp, hYp⟩ := ih _ hlt (runs.erase ne) rfl
          (buf ++ [fresh_score heap ne]) out _ limit hst' hinv'
        refine ⟨fresh_score heap ne :: X', Y', ?_, ?_, ?_⟩
        · rw [heq]
          simp [List.append_assoc]
        · have hmapx : ((runs.filter (fun e =>
              !decide ((fresh_score heap e).free_space = nallocs))).map
                (fresh_score heap)).Perm
              (fresh_score heap ne :: ((runs.erase ne).filter (fun e =>
                !decide ((fresh_score heap e).free_space = nallocs))).map
                  (fresh_score heap)) := by
            have := (hperm.filter (fun e =>
              !decide ((fresh_score heap e).free_space = nallocs))).map
                (fresh_score heap)
            simpa [List.filter_cons, hfull] using this
          exact (hXp.cons (fresh_score heap ne)).trans hmapx.symm
        · have hmapy : ((runs.filter (fun e =>
              decide ((fresh_score heap e).free_space = nallocs))).map
                handle_of).Perm
              (((runs.erase ne).filter (fun e =>
                decide ((fresh_score heap e).free_space = nallocs))).map
                  handle_of) := by
            have := (hperm.filter (fun e =>
              decide ((fresh_score heap e).free_space = nallocs))).map
                handle_of
            simpa [List.filter_cons, hfull] using this
          exact hYp.trans hmapy.symm

/-! ## Claim theorems -/

/-- C10: the result and the state change of `recycler_put` depend only on
the score element: the memory-block handle argument is never read, two
calls with the same element and different handles coincide, and the entry
recorded in the index is the element itself (so its `chunk_id`/`zone_id`
come solely from the element). -/
theorem claim_C10_put_ignores_handle (r : recycler) (m1 m2 : memory_block)
    (e : recycler_element) :
    recycler_put r m1 e = recycler_put r m2 e
    ∧ (recycler_put r m1 e).1.runs = r.runs ++ [e]
    ∧ (recycler_put r m1 e).2 = 0 :=
  ⟨rfl, rfl, rfl⟩

/-- C6: with the gate taken or the unaccounted units below the threshold,
an unforced recalculation is a no-op: empty result and the state returned
unchanged, every component included. -/
theorem claim_C6_recalc_noop (heap : palloc_heap) (r : recycler)
    (h : r.recalc_inprogress = true ∨
      r.unaccounted_units < r.recalc_threshold) :
    recycler_recalc heap r false = some (r, []) := by
  unfold recycler_recalc
  rcases h with h | h <;> simp [h]

/-- C6 witness: a freshly created recycler is below its threshold and the
unforced recalculation returns it unchanged with an empty result. -/
theorem claim_C6_witness :
    ((recycler_new 5).recalc_inprogress = true ∨
      (recycler_new 5).unaccounted_units < (recycler_new 5).recalc_threshold)
    ∧ recycler_recalc ⟨fun _ _ => [0], fun _ _ => 64⟩ (recycler_new 5) false
        = some (recycler_new 5, []) :=
  ⟨by decide, claim_C6_recalc_noop _ _ (by decide)⟩

/-- C4: the pending lifecycle.  `recycler_pending_put` only appends to the
queue.  The pending scan moves exactly the zero-reservation entries into
the index (each scored once) and keeps every other entry in the queue
untouched.  A recalculation never reads or writes the pending queue, and
`recycler_get` touches the queue only through the pending scan. -/
theorem claim_C4_pending_lifecycle (heap : palloc_heap) (r : recycler)
    (mr : memory_block_reserved) (m : memory_block) (force : Bool) :
    recycler_pending_put r mr = { r with pending := r.pending ++ [mr] }
    ∧ recycler_pending_check heap r = { r with
        runs := r.runs ++ (r.pending.filter
          (fun x => decide (x.nresv = 0))).map
            (fun x => recycler_element_new heap x.m)
        pending := r.pending.filter (fun x => !decide (x.nresv = 0)) }
    ∧ ((recycler_recalc heap r force).map
        (fun p => p.1.pending)).getD r.pending = r.pending
    ∧ (recycler_get heap r m).1.pending
        = (recycler_pending_check heap r).pending := by
  refine ⟨rfl, recycler_pending_check_spec heap r, ?_, ?_⟩
  · unfold recycler_recalc
    dsimp only
    split_ifs
    · simp
    all_goals (split <;> simp)
  · unfold recycler_get
    dsimp only
    split <;> simp

/-- C9: when `recycler_get` fails, it returns ENOMEM without modifying the
caller's memory block and without removing any entry from the scored
index: the previous index is an initial segment of the new one. -/
theorem claim_C9_get_failure_frame (heap : palloc_heap) (r : recycler)
    (m : memory_block) (h : (recycler_get heap r m).2.2 = ENOMEM) :
    (recycler_get heap r m).2.1 = m
    ∧ ∃ t, (recycler_get heap r m).1.runs = r.runs ++ t := by
  unfold recycler_get at h ⊢
  dsimp only at h ⊢
  rcases hfind : ravl_find_ge (recycler_pending_check heap r).runs
      { max_free_block := m.size_idx % 2 ^ 16, free_space := 0,
        zone_id := 0, chunk_id := 0 } with _ | ne
  · simp only [hfind] at h ⊢
    refine ⟨by simp, ?_⟩
    rw [recycler_pending_check_spec heap r]
    exact ⟨_, rfl⟩
  · simp only [hfind] at h
    simp [ENOMEM] at h

/-- C9 witness: on an empty recycler, a request of size 1 fails with
ENOMEM, leaves the block argument untouched and removes nothing. -/
theorem claim_C9_witness :
    (recycler_get ⟨fun _ _ => [0], fun _ _ => 64⟩ (recycler_new 10)
      ⟨0, 0, 1⟩).2.2 = ENOMEM
    ∧ ((recycler_get ⟨fun _ _ => [0], fun _ _ => 64⟩ (recycler_new 10)
        ⟨0, 0, 1⟩).2.1 = ⟨0, 0, 1⟩
      ∧ ∃ t, (recycler_get ⟨fun _ _ => [0], fun _ _ => 64⟩ (recycler_new 10)
        ⟨0, 0, 1⟩).1.runs = (recycler_new 10).runs ++ t) :=
  ⟨by decide, claim_C9_get_failure_frame _ _ _ (by decide)⟩

/-- C7: under the documented accounting invariant — an indexed score's
`free_space` never exceeds the run's current free space — the assertion in
the recalculation loop that the fresh score is never smaller cannot fire:
the recalculation never takes the aborting branch. -/
theorem claim_C7_recalc_assert_unreachable (heap : palloc_heap)
    (r : recycler) (force : Bool)
    (hst : ∀ e ∈ r.runs, e.free_space ≤ (fresh_score heap e).free_space) :
    recycler_recalc heap r force ≠ none := by
  unfold recycler_recalc
  dsimp only
  split_ifs
  · simp
  all_goals
    (split
     · rename_i hloop
       exact absurd hloop (recycler_recalc_loop_ne_none heap r.nallocs
         r.runs.length r.runs rfl _ _ _ _ hst)
     · simp)

/-- C7 witness: on a state with one stale-low entry whose run is now fully
free, the recalculation completes without hitting the assertion. -/
theorem claim_C7_witness :
    (∀ e ∈ ({ recycler_new 64 with runs := [⟨3, 2, 0, 0⟩] } :
        recycler).runs,
      e.free_space ≤ (fresh_score ⟨fun _ _ => [0], fun _ _ => 64⟩
        e).free_space)
    ∧ recycler_recalc ⟨fun _ _ => [0], fun _ _ => 64⟩
        { recycler_new 64 with runs := [⟨3, 2, 0, 0⟩] } true ≠ none :=
  ⟨by decide, claim_C7_recalc_assert_unreachable _ _ _ (by decide)⟩

/-- The scorer records the scanned run's chunk coordinate. -/
theorem recycler_element_new_chunk_id (heap : palloc_heap)
    (x : memory_block) :
    (recycler_element_new heap x).chunk_id = x.chunk_id := rfl

/-- The scorer records the scanned run's zone coordinate. -/
theorem recycler_element_new_zone_id (heap : palloc_heap)
    (x : memory_block) :
    (recycler_element_new heap x).zone_id = x.zone_id := rfl

/-- C1: a successful `recycler_get` never returns a run whose
authoritative `size_idx` (read back from the persistent chunk header) is
below the requested size.  The hypotheses are the documented accounting
invariant that scores drift low, never high: no indexed entry and no
pending run overstates (via `max_free_block`) what the header
authorizes. -/
theorem claim_C1_get_authoritative_size (heap : palloc_heap) (r : recycler)
    (m : memory_block) (hsz : m.size_idx < 2 ^ 16)
    (hidx : ∀ e ∈ r.runs,
      e.max_free_block ≤ heap.hdr_size_idx e.chunk_id e.zone_id)
    (hpend : ∀ mr ∈ r.pending,
      (recycler_element_new heap mr.m).max_free_block
        ≤ heap.hdr_size_idx mr.m.chunk_id mr.m.zone_id)
    (hsucc : (recycler_get heap r m).2.2 = 0) :
    m.size_idx ≤ (recycler_get heap r m).2.1.size_idx := by
  have hall : ∀ e ∈ (recycler_pending_check heap r).runs,
      e.max_free_block ≤ heap.hdr_size_idx e.chunk_id e.zone_id := by
    intro e he
    rw [recycler_pending_check_spec heap r] at he
    dsimp only at he
    rcases List.mem_append.mp he with he | he
    · exact hidx e he
    · obtain ⟨mr, hmr, rfl⟩ := List.mem_map.mp he
      rw [recycler_element_new_chunk_id, recycler_element_new_zone_id]
      exact hpend mr (List.mem_of_mem_filter hmr)
  unfold recycler_get at hsucc ⊢
  dsimp only at hsucc ⊢
  rcases hfind : ravl_find_ge (recycler_pending_check heap r).runs
      { max_free_block := m.size_idx % 2 ^ 16, free_space := 0,
        zone_id := 0, chunk_id := 0 } with _ | ne
  · simp only [hfind] at hsucc
    simp [ENOMEM] at hsucc
  · simp only [hfind]
    have h1 : m.size_idx % 2 ^ 16 ≤ ne.max_free_block :=
      element_le_probe_mfb (ravl_find_ge_le hfind)
    have h2 := hall ne (ravl_find_ge_mem hfind)
    rw [Nat.mod_eq_of_lt hsz] at h1
    simp only [memblock_rebuild_state]
    omega

/-- C1 witness: a one-entry index whose header authorizes 64 blocks serves
a size-1 request with an authoritative size of 64. -/
theorem claim_C1_witness :
    ((⟨0, 0, 1⟩ : memory_block).size_idx < 2 ^ 16)
    ∧ (∀ e ∈ ({ recycler_new 64 with runs := [⟨64, 64, 0, 0⟩] } :
        recycler).runs,
      e.max_free_block ≤
        (⟨fun _ _ => [0], fun _ _ => 64⟩ : palloc_heap).hdr_size_idx
          e.chunk_id e.zone_id)
    ∧ (∀ mr ∈ ({ recycler_new 64 with runs := [⟨64, 64, 0, 0⟩] } :
        recycler).pending,
      (recycler_element_new ⟨fun _ _ => [0], fun _ _ => 64⟩
          mr.m).max_free_block ≤
        (⟨fun _ _ => [0], fun _ _ => 64⟩ : palloc_heap).hdr_size_idx
          mr.m.chunk_id mr.m.zone_id)
    ∧ (recycler_get ⟨fun _ _ => [0], fun _ _ => 64⟩
        { recycler_new 64 with runs := [⟨64, 64, 0, 0⟩] } ⟨0, 0, 1⟩).2.2 = 0
    ∧ (⟨0, 0, 1⟩ : memory_block).size_idx ≤
        (recycler_get ⟨fun _ _ => [0], fun _ _ => 64⟩
          { recycler_new 64 with runs := [⟨64, 64, 0, 0⟩] }
          ⟨0, 0, 1⟩).2.1.size_idx :=
  ⟨by decide, by decide, by decide, by decide,
    claim_C1_get_authoritative_size _ _ _ (by decide) (by decide)
      (by decide) (by decide)⟩

/-- C3: for every bitmap small enough for the on-media layout (at most
1023 words, the real array has 16), the score's `free_space` is the exact
number of free (zero) bits, its `max_free_block` is the exact length of
the longest run of contiguous free bits within a single word, and the
per-word value is computed by the repeated AND-with-self-shifted-left
loop, whose iteration count equals the longest run length. -/
theorem claim_C3_scorer_exact (heap : palloc_heap) (m : memory_block)
    (H : (heap.run_bitmap m.chunk_id m.zone_id).length ≤ 1023) :
    (recycler_element_new heap m).free_space
        = totalFreeBits (heap.run_bitmap m.chunk_id m.zone_id)
    ∧ (recycler_element_new heap m).max_free_block
        = maxFreeRunBm (heap.run_bitmap m.chunk_id m.zone_id)
    ∧ ∀ w ∈ heap.run_bitmap m.chunk_id m.zone_id,
        recycler_longest_run_loop (complement64 w) 0
          = maxOneRun (complement64 w) := by
  refine ⟨?_, ?_, ?_⟩
  · rw [recycler_element_new_spec heap m H]
  · rw [recycler_element_new_spec heap m H]
  · intro w _
    rw [recycler_longest_run_loop_eq (complement64_lt w) 0]
    omega

/-- C3 witness: a fully free one-word bitmap scores 64 free bits with a
longest free run of 64. -/
theorem claim_C3_witness :
    ((⟨fun _ _ => [0], fun _ _ => 64⟩ : palloc_heap).run_bitmap 1 2).length
      ≤ 1023
    ∧ ((recycler_element_new ⟨fun _ _ => [0], fun _ _ => 64⟩
          ⟨1, 2, 0⟩).free_space
        = totalFreeBits ((⟨fun _ _ => [0], fun _ _ => 64⟩ :
            palloc_heap).run_bitmap 1 2)
      ∧ (recycler_element_new ⟨fun _ _ => [0], fun _ _ => 64⟩
          ⟨1, 2, 0⟩).max_free_block
        = maxFreeRunBm ((⟨fun _ _ => [0], fun _ _ => 64⟩ :
            palloc_heap).run_bitmap 1 2)
      ∧ ∀ w ∈ (⟨fun _ _ => [0], fun _ _ => 64⟩ :
            palloc_heap).run_bitmap 1 2,
          recycler_longest_run_loop (complement64 w) 0
            = maxOneRun (complement64 w)) :=
  ⟨by decide, claim_C3_scorer_exact _ _ (by decide)⟩

/-- The longest within-word free run never exceeds the total free bits. -/
theorem maxFreeRunBm_le_totalFreeBits (bm : List Nat) :
    maxFreeRunBm bm ≤ totalFreeBits bm := by
  unfold maxFreeRunBm totalFreeBits
  induction bm with
  | nil => simp
  | cons w ws ih =>
    simp only [List.map_cons, List.foldr_cons, List.sum_cons]
    have h1 : maxOneRun (complement64 w) ≤ freeBitsInWord w := by
      rw [← util_popcount64_complement]
      exact maxOneRun_le_popcount (complement64_lt w)
    exact max_le (by omega) (by omega)

/-- C8: for every bitmap of the on-media size, the score satisfies
`max_free_block ≤ free_space`. -/
theorem claim_C8_max_le_free (heap : palloc_heap) (m : memory_block)
    (H : (heap.run_bitmap m.chunk_id m.zone_id).length ≤ 1023) :
    (recycler_element_new heap m).max_free_block
      ≤ (recycler_element_new heap m).free_space := by
  rw [recycler_element_new_spec heap m H]
  exact maxFreeRunBm_le_totalFreeBits _

/-- C8 witness: the bound holds on a concrete fully free one-word
bitmap. -/
theorem claim_C8_witness :
    ((⟨fun _ _ => [0], fun _ _ => 64⟩ : palloc_heap).run_bitmap 1 2).length
      ≤ 1023
    ∧ (recycler_element_new ⟨fun _ _ => [0], fun _ _ => 64⟩
        ⟨1, 2, 0⟩).max_free_block
      ≤ (recycler_element_new ⟨fun _ _ => [0], fun _ _ => 64⟩
        ⟨1, 2, 0⟩).free_space :=
  ⟨by decide, claim_C8_max_le_free _ _ (by decide)⟩

/-- C5 counterexample: `recycler_put` never reads the handle argument, so
putting handle (chunk 1, zone 1) with a score recording (chunk 7, zone 7)
and then getting `s.max_free_block` succeeds but returns the score's
coordinates, not the handle's — the returned handle differs from `h`. -/
theorem claim_C5_counterexample :
    (recycler_get ⟨fun _ _ => [0], fun _ _ => 5⟩
        (recycler_put (recycler_new 10) ⟨1, 1, 3⟩ ⟨3, 3, 7, 7⟩).1
        ⟨0, 0, 3⟩).2.2 = 0
    ∧ ¬ ((recycler_get ⟨fun _ _ => [0], fun _ _ => 5⟩
          (recycler_put (recycler_new 10) ⟨1, 1, 3⟩ ⟨3, 3, 7, 7⟩).1
          ⟨0, 0, 3⟩).2.1.chunk_id = (⟨1, 1, 3⟩ : memory_block).chunk_id
        ∧ (recycler_get ⟨fun _ _ => [0], fun _ _ => 5⟩
          (recycler_put (recycler_new 10) ⟨1, 1, 3⟩ ⟨3, 3, 7, 7⟩).1
          ⟨0, 0, 3⟩).2.1.zone_id = (⟨1, 1, 3⟩ : memory_block).zone_id) := by
  decide

/-- C5 amended: starting from a freshly created recycler (empty index and
pending queue), `put(h, s)` followed by `get(s.max_free_block)` succeeds
and returns the run recorded in the score — its `chunk_id`/`zone_id` are
`s`'s (hence equal to `h`'s exactly when the score carries the handle's
coordinates), with `size_idx` refreshed from the persistent header. -/
theorem claim_C5_put_get_roundtrip (heap : palloc_heap) (nallocs : Nat)
    (h : memory_block) (s : recycler_element) (m0 : memory_block)
    (hm : m0.size_idx = s.max_free_block) :
    (recycler_get heap (recycler_put (recycler_new nallocs) h s).1
      m0).2.2 = 0
    ∧ (recycler_get heap (recycler_put (recycler_new nallocs) h s).1
        m0).2.1.chunk_id = s.chunk_id
    ∧ (recycler_get heap (recycler_put (recycler_new nallocs) h s).1
        m0).2.1.zone_id = s.zone_id
    ∧ (recycler_get heap (recycler_put (recycler_new nallocs) h s).1
        m0).2.1.size_idx = heap.hdr_size_idx s.chunk_id s.zone_id := by
  have hruns : (recycler_pending_check heap
      (recycler_put (recycler_new nallocs) h s).1).runs = [s] := by
    rw [recycler_pending_check_spec]
    simp [recycler_put, recycler_new, ravl_emplace_copy]
  have hfind : ravl_find_ge (recycler_pending_check heap
      (recycler_put (recycler_new nallocs) h s).1).runs
      { max_free_block := m0.size_idx % 2 ^ 16, free_space := 0,
        zone_id := 0, chunk_id := 0 } = some s := by
    rw [hruns]
    apply ravl_find_ge_singleton
    apply element_le_probe_of_le
    rw [hm]
    exact Nat.mod_le _ _
  unfold recycler_get
  dsimp only
  simp only [hfind]
  simp [memblock_rebuild_state]

/-- C5 witness: a concrete round trip through the amended claim. -/
theorem claim_C5_witness :
    ((⟨0, 0, 3⟩ : memory_block).size_idx
      = (⟨3, 3, 7, 7⟩ : recycler_element).max_free_block)
    ∧ ((recycler_get ⟨fun _ _ => [0], fun _ _ => 5⟩
          (recycler_put (recycler_new 10) ⟨7, 7, 3⟩ ⟨3, 3, 7, 7⟩).1
          ⟨0, 0, 3⟩).2.2 = 0
      ∧ (recycler_get ⟨fun _ _ => [0], fun _ _ => 5⟩
          (recycler_put (recycler_new 10) ⟨7, 7, 3⟩ ⟨3, 3, 7, 7⟩).1
          ⟨0, 0, 3⟩).2.1.chunk_id = (⟨3, 3, 7, 7⟩ : recycler_element).chunk_id
      ∧ (recycler_get ⟨fun _ _ => [0], fun _ _ => 5⟩
          (recycler_put (recycler_new 10) ⟨7, 7, 3⟩ ⟨3, 3, 7, 7⟩).1
          ⟨0, 0, 3⟩).2.1.zone_id = (⟨3, 3, 7, 7⟩ : recycler_element).zone_id
      ∧ (recycler_get ⟨fun _ _ => [0], fun _ _ => 5⟩
          (recycler_put (recycler_new 10) ⟨7, 7, 3⟩ ⟨3, 3, 7, 7⟩).1
          ⟨0, 0, 3⟩).2.1.size_idx
        = (⟨fun _ _ => [0], fun _ _ => 5⟩ : palloc_heap).hdr_size_idx
            (⟨3, 3, 7, 7⟩ : recycler_element).chunk_id
            (⟨3, 3, 7, 7⟩ : recycler_element).zone_id) :=
  ⟨rfl, claim_C5_put_get_roundtrip ⟨fun _ _ => [0], fun _ _ => 5⟩ 10
    ⟨7, 7, 3⟩ ⟨3, 3, 7, 7⟩ ⟨0, 0, 3⟩ rfl⟩

/-- Rescoring keeps the run's coordinates. -/
theorem handle_of_fresh (heap : palloc_heap) (e : recycler_element) :
    handle_of (fresh_score heap e) = handle_of e := rfl

/-- The fresh score depends only on the run the entry refers to. -/
theorem fresh_score_congr {heap : palloc_heap} {e1 e2 : recycler_element}
    (h : handle_of e1 = handle_of e2) :
    fresh_score heap e1 = fresh_score heap e2 := by
  unfold fresh_score
  rw [h]

/-- C2: with the single-flight gate free (and the scratch buffer in its
resting empty state), a forced recalculation rescans every entry of the
index: it succeeds, its result set consists exactly of the handles of the
rescanned runs whose fresh score shows `free_space = nallocs` (and none of
those runs remains in the index), while every other rescanned run remains
in the index exactly as its refreshed score, whose `free_space` is at
least the stored one.  The stale-low hypothesis is the documented
accounting invariant; the length bound keeps the accumulated drift below
the unlimited (`UINT64_MAX`) search limit. -/
theorem claim_C2_recalc_force_drains (heap : palloc_heap) (r : recycler)
    (H1 : r.recalc_inprogress = false) (H2 : r.recalc = [])
    (H3 : ∀ e ∈ r.runs, e.free_space ≤ (fresh_score heap e).free_space)
    (H4 : r.runs.length ≤ 2 ^ 32) :
    ∃ r2 out, recycler_recalc heap r true = some (r2, out)
      ∧ out.Perm ((r.runs.filter (fun e =>
          decide ((fresh_score heap e).free_space = r.nallocs))).map
            handle_of)
      ∧ r2.runs.Perm ((r.runs.filter (fun e =>
          !decide ((fresh_score heap e).free_space = r.nallocs))).map
            (fresh_score heap))
      ∧ (∀ e ∈ r.runs, (fresh_score heap e).free_space = r.nallocs →
          handle_of e ∈ out ∧ ∀ e2 ∈ r2.runs, handle_of e2 ≠ handle_of e)
      ∧ (∀ e ∈ r.runs, (fresh_score heap e).free_space ≠ r.nallocs →
          fresh_score heap e ∈ r2.runs
          ∧ e.free_space ≤ (fresh_score heap e).free_space) := by
  have hinv : 0 + (r.runs.map (fun e =>
      (fresh_score heap e).free_space - e.free_space)).sum < UINT64_MAX := by
    have hb : ∀ x ∈ r.runs.map (fun e =>
        (fresh_score heap e).free_space - e.free_space), x ≤ 65535 := by
      intro x hx
      obtain ⟨e, he, rfl⟩ := List.mem_map.mp hx
      have hlt := recycler_element_new_free_space_lt heap (handle_of e)
      unfold fresh_score
      omega
    have hsum := List.sum_le_card_nsmul _ 65535 hb
    rw [List.length_map, smul_eq_mul] at hsum
    unfold UINT64_MAX
    have hp32 : (2 : Nat) ^ 32 = 4294967296 := by norm_num
    have hp64 : (2 : Nat) ^ 64 = 18446744073709551616 := by norm_num
    omega
  obtain ⟨X, Y, heq, hXp, hYp⟩ := recycler_recalc_loop_spec heap r.nallocs
    r.runs.length r.runs rfl r.recalc [] 0 UINT64_MAX H3 hinv
  have hmain : recycler_recalc heap r true = some ({ r with
      runs := X
      recalc := []
      unaccounted_units := r.unaccounted_units - r.unaccounted_units
      recalc_inprogress := false }, Y) := by
    unfold recycler_recalc
    dsimp only
    rw [if_neg (by simp [H1])]
    have hif : (if (true : Bool) = true then UINT64_MAX
        else r.unaccounted_units) = UINT64_MAX := by simp
    rw [hif, heq]
    simp [foldl_emplace, H2]
  refine ⟨_, _, hmain, ?_, ?_, ?_, ?_⟩
  · exact hYp
  · simpa using hXp
  · intro e he hfull
    constructor
    · exact hYp.mem_iff.mpr (List.mem_map.mpr
        ⟨e, List.mem_filter.mpr ⟨he, by simp [hfull]⟩, rfl⟩)
    · intro e2 he2 hcontra
      have he2' := hXp.mem_iff.mp (by simpa using he2)
      obtain ⟨e0, he0, rfl⟩ := List.mem_map.mp he2'
      have hnf := (List.mem_filter.mp he0).2
      rw [handle_of_fresh] at hcontra
      have hsame : fresh_score heap e0 = fresh_score heap e :=
        fresh_score_congr hcontra
      simp [hsame, hfull] at hnf
  · intro e he hnfull
    refine ⟨?_, H3 e he⟩
    have hin : fresh_score heap e ∈ (r.runs.filter (fun e =>
        !decide ((fresh_score heap e).free_space = r.nallocs))).map
          (fresh_score heap) :=
      List.mem_map.mpr ⟨e, List.mem_filter.mpr ⟨he, by simp [hnfull]⟩, rfl⟩
    have := hXp.mem_iff.mpr hin
    simpa using this

/-- C2 witness: a one-entry stale index over a fully free run; the forced
recalculation returns that run and empties the index. -/
theorem claim_C2_witness :
    (({ recycler_new 64 with runs := [⟨3, 2, 0, 0⟩] } :
        recycler).recalc_inprogress = false)
    ∧ (({ recycler_new 64 with runs := [⟨3, 2, 0, 0⟩] } :
        recycler).recalc = [])
    ∧ (∀ e ∈ ({ recycler_new 64 with runs := [⟨3, 2, 0, 0⟩] } :
        recycler).runs,
      e.free_space ≤ (fresh_score ⟨fun _ _ => [0], fun _ _ => 64⟩
        e).free_space)
    ∧ (({ recycler_new 64 with runs := [⟨3, 2, 0, 0⟩] } :
        recycler).runs.length ≤ 2 ^ 32)
    ∧ (∃ r2 out, recycler_recalc ⟨fun _ _ => [0], fun _ _ => 64⟩
          { recycler_new 64 with runs := [⟨3, 2, 0, 0⟩] } true
          = some (r2, out)
      ∧ out.Perm ((({ recycler_new 64 with runs := [⟨3, 2, 0, 0⟩] } :
          recycler).runs.filter (fun e =>
            decide ((fresh_score ⟨fun _ _ => [0], fun _ _ => 64⟩
              e).free_space
              = ({ recycler_new 64 with runs := [⟨3, 2, 0, 0⟩] } :
                recycler).nallocs))).map handle_of)
      ∧ r2.runs.Perm ((({ recycler_new 64 with runs := [⟨3, 2, 0, 0⟩] } :
          recycler).runs.filter (fun e =>
            !decide ((fresh_score ⟨fun _ _ => [0], fun _ _ => 64⟩
              e).free_space
              = ({ recycler_new 64 with runs := [⟨3, 2, 0, 0⟩] } :
                recycler).nallocs))).map
            (fresh_score ⟨fun _ _ => [0], fun _ _ => 64⟩))
      ∧ (∀ e ∈ ({ recycler_new 64 with runs := [⟨3, 2, 0, 0⟩] } :
            recycler).runs,
          (fresh_score ⟨fun _ _ => [0], fun _ _ => 64⟩ e).free_space
            = ({ recycler_new 64 with runs := [⟨3, 2, 0, 0⟩] } :
              recycler).nallocs →
          handle_of e ∈ out ∧ ∀ e2 ∈ r2.runs,
            handle_of e2 ≠ handle_of e)
      ∧ (∀ e ∈ ({ recycler_new 64 with runs := [⟨3, 2, 0, 0⟩] } :
            recycler).runs,
          (fresh_score ⟨fun _ _ => [0], fun _ _ => 64⟩ e).free_space
            ≠ ({ recycler_new 64 with runs := [⟨3, 2, 0, 0⟩] } :
              recycler).nallocs →
          fresh_score ⟨fun _ _ => [0], fun _ _ => 64⟩ e ∈ r2.runs
          ∧ e.free_space ≤ (fresh_score ⟨fun _ _ => [0],
              fun _ _ => 64⟩ e).free_space)) :=
  ⟨by decide, by decide, by decide, by decide,
    claim_C2_recalc_force_drains _ _ (by decide) (by decide) (by decide)
      (by decide)⟩
